import Mathlib

/-!
Verification of the sunnypilot joystick replay-render tooling
(`tools/joystick/lib/telemetry.py`, `lib/discovery.py`, `lib/renderer.py`,
`replay_render.py`) against its natural-language specification.

The Python source is shallowly embedded: dataclasses become structures,
lists stay lists, Python ints become `Int`/`Nat`, floats that are only
carried (never computed with) become `Rat`, and fallible functions return
`Except`.
-/

namespace Telemetry

/-- Embedding of `TelemetryFrame` (telemetry.py).  Float-valued fields are
only carried through the pipeline, never computed with, so they are
represented as rationals. -/
structure TelemetryFrame where
  frame_number : Int
  video_time : Rat
  keys_left : Bool
  keys_right : Bool
  steer : Rat
  gas : Bool
  brake : Bool
  accel : Rat
  angle : Rat
  deriving DecidableEq, Repr, Inhabited

/-- Embedding of `ChunkTelemetry` (telemetry.py): the dataclass after
`__post_init__` has run.  `frameNums` is the `_frame_nums` field. -/
structure ChunkTelemetry where
  start_time : Int
  chunk_index : Int
  frames : List TelemetryFrame
  frame_offset : Int
  frameNums : List Int
  deriving DecidableEq, Repr

/-- Embedding of `ChunkTelemetry.__post_init__`: constructs the dataclass
from the raw field values (`frame_offset` defaults to 0, `_frame_nums` to
`[]`) and then runs the post-init body: if `frames` is non-empty, filter
to the frames with positive frame number; if any survive, replace
`frames`, set `frame_offset` to the first survivor's frame number and
build the normalized `_frame_nums` array. -/
def mkChunkTelemetry (start_time chunk_index : Int)
    (frames : List TelemetryFrame) : ChunkTelemetry :=
  match frames with
  | [] => ⟨start_time, chunk_index, frames, 0, []⟩
  | _ :: _ =>
    let valid := frames.filter (fun f => 0 < f.frame_number)
    match valid with
    | [] => ⟨start_time, chunk_index, frames, 0, []⟩
    | v0 :: _ =>
      ⟨start_time, chunk_index, valid, v0.frame_number,
        valid.map (fun f => f.frame_number - v0.frame_number)⟩

/-- Embedding of the loop inside `bisect.bisect_left` (CPython `_bisect`):
`while lo < hi: mid = (lo+hi)//2; if a[mid] < x: lo = mid+1 else: hi = mid`.
The loop is written with an explicit fuel so that it is structural
recursion; each iteration shrinks `hi - lo` by at least one, so any fuel
of at least `hi - lo` (in particular the `a.length` used by
`bisect_left`) computes the loop's exact result. -/
def bisectLoop (a : List Int) (x : Int) : Nat → Nat → Nat → Nat
  | 0, lo, _ => lo
  | fuel + 1, lo, hi =>
    if lo < hi then
      if a.getD ((lo + hi) / 2) 0 < x then
        bisectLoop a x fuel ((lo + hi) / 2 + 1) hi
      else bisectLoop a x fuel lo ((lo + hi) / 2)
    else lo

/-- Embedding of `bisect.bisect_left(a, x)`. -/
def bisect_left (a : List Int) (x : Int) : Nat :=
  bisectLoop a x a.length 0 a.length

instance {ε α : Type} [DecidableEq ε] [DecidableEq α] :
    DecidableEq (Except ε α) := fun x y => by
  cases x <;> cases y
  case ok.ok a b => exact decidable_of_iff (a = b) (by simp)
  case error.error a b => exact decidable_of_iff (a = b) (by simp)
  all_goals exact .isFalse (by simp)

/-- Embedding of `interpolate_telemetry` (telemetry.py).  `raise ValueError`
becomes `Except.error`. -/
def interpolate_telemetry (telemetry : ChunkTelemetry) (frame_index : Int) :
    Except String TelemetryFrame :=
  match hne : telemetry.frames with
  | [] => .error "No telemetry frames"
  | f0 :: _ =>
    let frame_nums := telemetry.frameNums
    let frames := telemetry.frames
    let idx := bisect_left frame_nums frame_index
    if idx = 0 then .ok f0
    else if idx ≥ frames.length then
      .ok (frames.getLast (by simp [frames, hne]))
    else if (frame_nums.getD idx 0 - frame_index).natAbs
        < (frame_nums.getD (idx - 1) 0 - frame_index).natAbs then
      .ok (frames.getD idx f0)
    else
      .ok (frames.getD (idx - 1) f0)

/-- Embedding of `get_frame_range` (telemetry.py). -/
def get_frame_range (telemetry : ChunkTelemetry) : Int × Int :=
  match telemetry.frameNums.getLast? with
  | none => (0, 0)
  | some last => (0, last)

/-- A raw telemetry sample with the given frame number and every other
field zeroed; used as concrete test input. -/
def tf (n : Int) : TelemetryFrame :=
  ⟨n, 0, false, false, 0, false, false, 0, 0⟩

end Telemetry

namespace Render

open Telemetry

/-- The event dictionaries of `replay_render.py` as a tagged variant:
`{'type': 'Keyboard', 'keycode': k, 'is_press': b}`,
`{'type': 'KeyTyped', 'keycode': k}` and
`{'type': 'Frame', 'frame_counter': i}`. -/
inductive Event where
  | keyboard (keycode : String) (is_press : Bool)
  | keyTyped (keycode : String)
  | frame (frame_counter : Nat)
  deriving DecidableEq, Repr

/-- The inner lookahead loop of `compress_events`: index of the first event
in `l` that is a Keyboard release (`is_press is False`) of key `k`
(the loop `for j in range(i+1, min(i+6, len(events)))` applied to the
window, with indices shifted so the window starts at 0). -/
def findReleaseIdx (k : String) : List Event → Option Nat
  | [] => none
  | .keyboard k2 false :: rest =>
    if k2 = k then some 0 else (findReleaseIdx k rest).map (· + 1)
  | _ :: rest => (findReleaseIdx k rest).map (· + 1)

/-- Embedding of `compress_events` (replay_render.py).  The Python `while`
loop over index `i` becomes recursion on the remaining suffix: a Keyboard
press of `k` whose matching release is found at window offset `j`
(Python index `i + 1 + j`) is replaced by `KeyTyped`, the events strictly
between press and release (`rest.take j`) are copied unmodified, and the
scan resumes after the release (`rest.drop (j + 1)`); otherwise the event
is copied and the scan advances by one. -/
def compress_events : List Event → List Event
  | [] => []
  | e :: rest =>
    match e with
    | .keyboard k true =>
      match findReleaseIdx k (rest.take 5) with
      | some j =>
        .keyTyped k :: (rest.take j ++ compress_events (rest.drop (j + 1)))
      | none => e :: compress_events rest
    | _ => e :: compress_events rest
  termination_by l => l.length
  decreasing_by
  all_goals simp only [List.length_drop, List.length_cons]
  all_goals omega

/-- Embedding of the per-frame event-building loop of `render_chunk`
(replay_render.py lines 150-168), abstracted over the list of telemetry
samples returned by `interpolate_telemetry` for frame indices
`i, i+1, ...` (one per extracted road frame).  `prev_left`/`prev_right`
are the `prev_keys_left`/`prev_keys_right` accumulators; a Keyboard event
is emitted exactly when the key state differs from the accumulator, and
one Frame event is always emitted per frame.  (When no Keyboard event is
emitted the accumulator already equals the current key state, so
recursing with the current key state is the same update the Python code
performs inside the `if`.) -/
def buildEventsAux (prev_left prev_right : Bool) (i : Nat) :
    List TelemetryFrame → List Event
  | [] => []
  | t :: rest =>
    (if t.keys_left ≠ prev_left then [Event.keyboard "Left" t.keys_left] else []) ++
    (if t.keys_right ≠ prev_right then [Event.keyboard "Right" t.keys_right] else []) ++
    (Event.frame i :: buildEventsAux t.keys_left t.keys_right (i + 1) rest)

/-- The event list `render_chunk` accumulates before compression: the loop
starts with `prev_keys_left = prev_keys_right = False` and `i = 0`. -/
def build_events (telems : List TelemetryFrame) : List Event :=
  buildEventsAux false false 0 telems

/-- The frame counter of a Frame event, `none` on the other variants. -/
def frameCounter : Event → Option Nat
  | .frame c => some c
  | _ => none

/-- Observation of a Keyboard event for keycode `kc`: its `is_press` flag,
`none` on Keyboard events of other keys and on non-Keyboard events. -/
def keyObs (kc : String) : Event → Option Bool
  | .keyboard k b => if k = kc then some b else none
  | _ => none

end Render

namespace Discovery

/-- The file kinds named by group 1 of `FILE_PATTERN` (discovery.py):
`(road|wide|telemetry)`. -/
inductive FileKind where
  | road
  | wide
  | telemetry
  deriving DecidableEq, Repr

/-- The literal text of each kind alternative of `FILE_PATTERN`. -/
def kindStr : FileKind → String
  | .road => "road"
  | .wide => "wide"
  | .telemetry => "telemetry"

/-- A successful match of `FILE_PATTERN` against a filename: the four
captured groups (with the numeric groups already passed through `int`). -/
structure FileMatch where
  kind : FileKind
  timestamp : Nat
  chunk_index : Nat
  ext : String
  deriving DecidableEq, Repr

/-- `int()` of a non-empty digit string. -/
def digitsToNat (l : List Char) : Nat :=
  l.foldl (fun n c => n * 10 + (c.toNat - 48)) 0

/-- Matching the part of `FILE_PATTERN` after `{kind}_` against the rest of
the filename: `(\d+)_chunk(\d+)\.(webm|json)$`.  Because `\d` cannot match
`_` or `.`, the regex engine's greedy match of each `(\d+)` group is
exactly the maximal digit run, so sequential parsing is faithful.
(Digits are modelled as ASCII digits.) -/
def matchTail (rest : List Char) : Option (Nat × Nat × String) :=
  let ts := rest.takeWhile Char.isDigit
  let r1 := rest.dropWhile Char.isDigit
  if ts = [] then none
  else if ("_chunk".toList).isPrefixOf r1 then
    let r2 := r1.drop 6
    let ci := r2.takeWhile Char.isDigit
    let r3 := r2.dropWhile Char.isDigit
    if ci = [] then none
    else
      match r3 with
      | '.' :: extl =>
        let ext := String.mk extl
        if ext = "webm" ∨ ext = "json" then
          some (digitsToNat ts, digitsToNat ci, ext)
        else none
      | _ => none
  else none

/-- Embedding of `FILE_PATTERN.match(name)` (discovery.py):
`^(road|wide|telemetry)_(\d+)_chunk(\d+)\.(webm|json)$`.  The three kind
alternatives start with distinct letters, so testing the literal prefixes
in order is faithful to the regex alternation. -/
def matchFilePattern (name : String) : Option FileMatch :=
  let l := name.toList
  if ("road_".toList).isPrefixOf l then
    (matchTail (l.drop 5)).map (fun p => ⟨.road, p.1, p.2.1, p.2.2⟩)
  else if ("wide_".toList).isPrefixOf l then
    (matchTail (l.drop 5)).map (fun p => ⟨.wide, p.1, p.2.1, p.2.2⟩)
  else if ("telemetry_".toList).isPrefixOf l then
    (matchTail (l.drop 10)).map (fun p => ⟨.telemetry, p.1, p.2.1, p.2.2⟩)
  else none

/-- The per-key dict `dict[str, Path]` built by `discover_sessions`: its
keys can only be the three capture-group values, so it is a record of
three optional paths. -/
structure GroupFiles where
  road : Option String
  wide : Option String
  telemetry : Option String
  deriving DecidableEq, Repr

/-- `groups[key][file_type] = f`: dict assignment for one kind. -/
def GroupFiles.set (g : GroupFiles) (kind : FileKind) (path : String) :
    GroupFiles :=
  match kind with
  | .road => { g with road := some path }
  | .wide => { g with wide := some path }
  | .telemetry => { g with telemetry := some path }

/-- The `groups` dict keyed by `(timestamp, chunk_index)`, modelled as an
insertion-ordered association list (Python dicts preserve key insertion
order; updating an existing key keeps its position). -/
def updateGroups (groups : List ((Nat × Nat) × GroupFiles)) (key : Nat × Nat)
    (kind : FileKind) (path : String) : List ((Nat × Nat) × GroupFiles) :=
  match groups with
  | [] => [(key, GroupFiles.set ⟨none, none, none⟩ kind path)]
  | (k, g) :: rest =>
    if k = key then (k, g.set kind path) :: rest
    else (k, g) :: updateGroups rest key kind path

/-- The first loop of `discover_sessions`: fold the directory entries
(modelled as the list of file names) into the `groups` dict, skipping
names that do not match `FILE_PATTERN`. -/
def buildGroups (names : List String) : List ((Nat × Nat) × GroupFiles) :=
  names.foldl
    (fun groups name =>
      match matchFilePattern name with
      | none => groups
      | some m => updateGroups groups (m.timestamp, m.chunk_index) m.kind name)
    []

/-- Embedding of the `Chunk` dataclass (discovery.py). -/
structure Chunk where
  timestamp : Nat
  chunk_index : Nat
  road_video : String
  wide_video : Option String
  telemetry : String
  deriving DecidableEq, Repr

/-- Embedding of the `Session` dataclass (discovery.py). -/
structure Session where
  timestamp : Nat
  chunks : List Chunk
  deriving DecidableEq, Repr

/-- `chunks_by_session`: an insertion-ordered dict from timestamp to the
chunks appended for that timestamp. -/
def addChunk (m : List (Nat × List Chunk)) (ts : Nat) (c : Chunk) :
    List (Nat × List Chunk) :=
  match m with
  | [] => [(ts, [c])]
  | (t, cs) :: rest =>
    if t = ts then (t, cs ++ [c]) :: rest
    else (t, cs) :: addChunk rest ts c

/-- The second loop of `discover_sessions`: build a `Chunk` from every
group that has both a road and a telemetry entry (groups missing either
are skipped) and append it under its timestamp. -/
def buildChunksBySession (groups : List ((Nat × Nat) × GroupFiles)) :
    List (Nat × List Chunk) :=
  groups.foldl
    (fun m kg =>
      match kg.2.road, kg.2.telemetry with
      | some r, some t =>
        addChunk m kg.1.1 ⟨kg.1.1, kg.1.2, r, kg.2.wide, t⟩
      | _, _ => m)
    []

/-- Chunk ordering inside a session: `chunks.sort(key=lambda c: c.chunk_index)`. -/
def chunkLE : Chunk → Chunk → Prop := fun c d => c.chunk_index ≤ d.chunk_index

/-- Session ordering: `sessions.sort(key=lambda s: s.timestamp, reverse=True)`. -/
def sessionGE : Session → Session → Prop := fun s t => t.timestamp ≤ s.timestamp

instance : DecidableRel chunkLE := fun _ _ => by
  unfold chunkLE; infer_instance

instance : DecidableRel sessionGE := fun _ _ => by
  unfold sessionGE; infer_instance

instance : IsTotal Chunk chunkLE := ⟨fun _ _ => Nat.le_total _ _⟩

instance : IsTrans Chunk chunkLE := ⟨fun _ _ _ => Nat.le_trans⟩

instance : IsTotal Session sessionGE := ⟨fun _ _ => (Nat.le_total _ _).symm⟩

instance : IsTrans Session sessionGE := ⟨fun _ _ _ h h' => Nat.le_trans h' h⟩

/-- Embedding of `discover_sessions` (discovery.py) over the list of file
names found in the input directory.  Python's stable `list.sort` is
modelled by the stable `List.insertionSort`. -/
def discover_sessions (names : List String) : List Session :=
  let bySession := buildChunksBySession (buildGroups names)
  let sessions := bySession.map
    (fun p => Session.mk p.1 (List.insertionSort chunkLE p.2))
  List.insertionSort sessionGE sessions

/-- Provenance of a discovered chunk: its road and telemetry paths are
input file names whose `FILE_PATTERN` match has the corresponding kind
and the chunk's own (timestamp, chunk_index); the wide path, when
attached, likewise.  In particular every such chunk has both a road video
and a telemetry file. -/
def ChunkProv (names : List String) (c : Chunk) : Prop :=
  (c.road_video ∈ names ∧ ∃ ext, matchFilePattern c.road_video
    = some ⟨.road, c.timestamp, c.chunk_index, ext⟩) ∧
  (c.telemetry ∈ names ∧ ∃ ext, matchFilePattern c.telemetry
    = some ⟨.telemetry, c.timestamp, c.chunk_index, ext⟩) ∧
  (∀ p, c.wide_video = some p → p ∈ names ∧ ∃ ext, matchFilePattern p
    = some ⟨.wide, c.timestamp, c.chunk_index, ext⟩)

/-- Invariant of one `groups` entry during the first discovery loop:
every path stored under a kind came from an input name matching
`FILE_PATTERN` with that kind and the entry's key. -/
def GroupInv (names : List String) (e : (Nat × Nat) × GroupFiles) : Prop :=
  (∀ p, e.2.road = some p → p ∈ names ∧ ∃ ext, matchFilePattern p
    = some ⟨.road, e.1.1, e.1.2, ext⟩) ∧
  (∀ p, e.2.wide = some p → p ∈ names ∧ ∃ ext, matchFilePattern p
    = some ⟨.wide, e.1.1, e.1.2, ext⟩) ∧
  (∀ p, e.2.telemetry = some p → p ∈ names ∧ ∃ ext, matchFilePattern p
    = some ⟨.telemetry, e.1.1, e.1.2, ext⟩)

end Discovery

namespace Renderer

/-- A task dequeued by `_worker_process` (renderer.py), as far as result
accounting is concerned: the tuple's first component.  The image paths,
telemetry JSON and output path are consumed only by the opaque render
action. -/
structure WTask where
  frame_index : Int
  deriving DecidableEq, Repr

/-- One result tuple pushed on `result_queue`: `(frame_index, ok, msg)`.
Python `str` error messages are modelled as their character sequences so
that slicing `[:200]` is `List.take 200`. -/
structure WResult where
  frame_index : Int
  ok : Bool
  msg : List Char
  deriving DecidableEq, Repr

/-- The `try`/`except` body handling one real task in `_worker_process`:
on success push `(frame_index, True, "")`; on an exception `e` push
`(frame_index, False, str(e)[:200])`.  The opaque per-task render action
(imread/encode/evaluate/screenshot) is modelled by its outcome. -/
def task_result (t : WTask) (outcome : Except (List Char) Unit) : WResult :=
  match outcome with
  | .ok _ => ⟨t.frame_index, true, []⟩
  | .error e => ⟨t.frame_index, false, e.take 200⟩

/-- The worker loop over the real tasks it dequeues (poison pill and stop
signal end the sequence): one result is pushed per task and the loop
continues regardless of the outcome. -/
def worker_loop (tasks : List WTask)
    (outcome : WTask → Except (List Char) Unit) : List WResult :=
  tasks.map (fun t => task_result t (outcome t))

/-- Embedding of `_worker_process` (renderer.py): the outer `try` either
completes setup and runs the loop, or an escaping exception `e` produces
the single crash result `(-1, False, f"Worker {worker_id} crashed: {e}")`
and the worker terminates. -/
def worker_process (worker_id : Int) (setup : Except (List Char) Unit)
    (tasks : List WTask) (outcome : WTask → Except (List Char) Unit) :
    List WResult :=
  match setup with
  | .ok _ => worker_loop tasks outcome
  | .error e =>
    [⟨-1, false,
      ("Worker ".toList ++ (toString worker_id).toList ++ " crashed: ".toList ++ e)⟩]

end Renderer

/-! ## General helper lemmas -/

theorem getD_eq_get {α : Type} (l : List α) (d : α) {i : Nat}
    (h : i < l.length) : l.getD i d = l.get ⟨i, h⟩ := by
  rw [List.getD_eq_getElem?_getD, List.getElem?_eq_getElem h,
    Option.getD_some, List.get_eq_getElem]

theorem sorted_getD_mono {a : List Int} (hs : List.Pairwise (· ≤ ·) a)
    {i j : Nat} (hij : i ≤ j) (hj : j < a.length) :
    a.getD i 0 ≤ a.getD j 0 := by
  rcases Nat.eq_or_lt_of_le hij with rfl | hlt
  · exact le_refl _
  · have hi : i < a.length := Nat.lt_trans hlt hj
    rw [List.getD_eq_getElem?_getD, List.getD_eq_getElem?_getD,
      List.getElem?_eq_getElem hi, List.getElem?_eq_getElem hj,
      Option.getD_some, Option.getD_some]
    exact List.pairwise_iff_getElem.mp hs i j hi hj hlt

namespace Telemetry

/-- The fueled loop computes the `bisect_left` loop exactly and satisfies
the standard binary-search postcondition on a sorted array: every index
below the result holds a value `< x`, every index at or above it (within
bounds) holds a value `≥ x`. -/
theorem bisectLoop_spec (a : List Int) (x : Int)
    (hs : List.Pairwise (· ≤ ·) a) :
    ∀ (fuel lo hi : Nat), hi - lo ≤ fuel → lo ≤ hi → hi ≤ a.length →
      (∀ i, i < lo → a.getD i 0 < x) →
      (∀ i, hi ≤ i → i < a.length → x ≤ a.getD i 0) →
      (lo ≤ bisectLoop a x fuel lo hi ∧ bisectLoop a x fuel lo hi ≤ hi) ∧
      (∀ i, i < bisectLoop a x fuel lo hi → a.getD i 0 < x) ∧
      (∀ i, bisectLoop a x fuel lo hi ≤ i → i < a.length →
        x ≤ a.getD i 0) := by
  intro fuel
  induction fuel with
  | zero =>
    intro lo hi hfuel hlohi hhil Hlo Hhi
    have : lo = hi := by omega
    subst this
    simp only [bisectLoop]
    exact ⟨⟨le_refl _, le_refl _⟩, Hlo, fun i h1 h2 => Hhi i h1 h2⟩
  | succ fuel ih =>
    intro lo hi hfuel hlohi hhil Hlo Hhi
    simp only [bisectLoop]
    split
    case isTrue hlt =>
      split
      case isTrue hmid =>
        have hmidlen : (lo + hi) / 2 < a.length := by omega
        have Hlo' : ∀ i, i < (lo + hi) / 2 + 1 → a.getD i 0 < x := by
          intro i h
          exact lt_of_le_of_lt (sorted_getD_mono hs (by omega) hmidlen) hmid
        obtain ⟨⟨h1, h2⟩, h3, h4⟩ :=
          ih ((lo + hi) / 2 + 1) hi (by omega) (by omega) hhil Hlo' Hhi
        exact ⟨⟨by omega, h2⟩, h3, h4⟩
      case isFalse hmid =>
        have Hhi' : ∀ i, (lo + hi) / 2 ≤ i → i < a.length →
            x ≤ a.getD i 0 := by
          intro i h1 h2
          exact le_trans (not_lt.mp hmid) (sorted_getD_mono hs h1 h2)
        obtain ⟨⟨h1, h2⟩, h3, h4⟩ :=
          ih lo ((lo + hi) / 2) (by omega) (by omega) (by omega) Hlo Hhi'
        exact ⟨⟨h1, by omega⟩, h3, h4⟩
    case isFalse hge =>
      have : lo = hi := by omega
      subst this
      exact ⟨⟨le_refl _, le_refl _⟩, Hlo, fun i h1 h2 => Hhi i h1 h2⟩

/-- `bisect_left` postcondition on a sorted array. -/
theorem bisect_left_spec (a : List Int) (x : Int)
    (hs : List.Pairwise (· ≤ ·) a) :
    bisect_left a x ≤ a.length ∧
    (∀ i, i < bisect_left a x → a.getD i 0 < x) ∧
    (∀ i, bisect_left a x ≤ i → i < a.length → x ≤ a.getD i 0) := by
  have h := bisectLoop_spec a x hs a.length 0 a.length (by omega)
    (Nat.zero_le _) (le_refl _) (fun i h => absurd h (Nat.not_lt_zero i))
    (fun i h1 h2 => absurd h2 (by omega))
  exact ⟨h.1.2, h.2.1, h.2.2⟩

/-- Branch-level characterization of `interpolate_telemetry` on a
non-empty frame list, used to reason about each branch separately. -/
theorem interpolate_eq (t : ChunkTelemetry) (q : Int) (f0 : TelemetryFrame)
    (tl : List TelemetryFrame) (hfr : t.frames = f0 :: tl) :
    interpolate_telemetry t q =
      if bisect_left t.frameNums q = 0 then .ok f0
      else if t.frames.length ≤ bisect_left t.frameNums q then
        .ok (t.frames.getLast (by simp [hfr]))
      else if (t.frameNums.getD (bisect_left t.frameNums q) 0 - q).natAbs
          < (t.frameNums.getD (bisect_left t.frameNums q - 1) 0 - q).natAbs
        then .ok (t.frames.getD (bisect_left t.frameNums q) f0)
      else .ok (t.frames.getD (bisect_left t.frameNums q - 1) f0) := by
  unfold interpolate_telemetry
  split
  case h_1 heq => rw [hfr] at heq; cases heq
  case h_2 f0' tl' heq =>
    have hf0 : f0' = f0 := by
      rw [hfr] at heq
      exact (List.cons.injEq _ _ _ _ ▸ heq).1.symm ▸ rfl
    subst hf0
    rfl

end Telemetry

namespace Telemetry

/-- C6: for a ChunkTelemetry with a non-empty frame list whose normalized
index array is sorted ascending (and parallel to the frame list), and any
integer query `q`: insertion point 0 returns the first frame; an
insertion point past the last element returns the last frame; and in
every case `interpolate_telemetry` returns one of the stored frames —
one whose normalized frame number has minimal absolute distance to `q`
among all stored frames — never a synthesized value. -/
theorem interpolate_clamps_and_returns_nearest_stored
    (t : ChunkTelemetry) (q : Int)
    (hne : t.frames ≠ [])
    (hlen : t.frameNums.length = t.frames.length)
    (hs : List.Pairwise (· ≤ ·) t.frameNums) :
    (bisect_left t.frameNums q = 0 →
      interpolate_telemetry t q = .ok (t.frames.head hne)) ∧
    (t.frames.length ≤ bisect_left t.frameNums q →
      interpolate_telemetry t q = .ok (t.frames.getLast hne)) ∧
    ∃ j, ∃ hj : j < t.frames.length,
      interpolate_telemetry t q = .ok (t.frames.get ⟨j, hj⟩) ∧
      ∀ i, i < t.frameNums.length →
        (t.frameNums.getD j 0 - q).natAbs ≤ (t.frameNums.getD i 0 - q).natAbs := by
  obtain ⟨st, ci, fr, off, nums⟩ := t
  obtain ⟨f0, tl, rfl⟩ := List.exists_cons_of_ne_nil hne
  dsimp only at hlen hs ⊢
  have hcomp := interpolate_eq ⟨st, ci, f0 :: tl, off, nums⟩ q f0 tl rfl
  dsimp only at hcomp
  obtain ⟨hle, H1, H2⟩ := bisect_left_spec nums q hs
  have hpos : 0 < (f0 :: tl).length := by simp
  refine ⟨?_, ?_, ?_⟩
  · intro h0
    rw [hcomp, if_pos h0]
    rfl
  · intro hge
    have h0 : bisect_left nums q ≠ 0 := by omega
    rw [hcomp, if_neg h0, if_pos hge]
  · by_cases h0 : bisect_left nums q = 0
    · refine ⟨0, hpos, ?_, ?_⟩
      · rw [hcomp, if_pos h0]
        rfl
      · intro i hi
        have hq : q ≤ nums.getD 0 0 := H2 0 (by omega) (by omega)
        have hq2 : q ≤ nums.getD i 0 := H2 i (by omega) hi
        have hmono : nums.getD 0 0 ≤ nums.getD i 0 :=
          sorted_getD_mono hs (Nat.zero_le i) hi
        omega
    · by_cases hge : (f0 :: tl).length ≤ bisect_left nums q
      · refine ⟨(f0 :: tl).length - 1, by omega, ?_, ?_⟩
        · rw [hcomp, if_neg h0, if_pos hge, List.getLast_eq_getElem,
            List.get_eq_getElem]
        · intro i hi
          have hlt : nums.getD i 0 < q := H1 i (by omega)
          have hlast : nums.getD i 0 ≤
              nums.getD ((f0 :: tl).length - 1) 0 :=
            sorted_getD_mono hs (by omega) (by omega)
          have hlt2 : nums.getD ((f0 :: tl).length - 1) 0 < q :=
            H1 _ (by omega)
          omega
      · have hrlen : bisect_left nums q < (f0 :: tl).length := by omega
        have hrpos : 0 < bisect_left nums q := by omega
        have hqr : q ≤ nums.getD (bisect_left nums q) 0 :=
          H2 _ (le_refl _) (by omega)
        have hqr1 : nums.getD (bisect_left nums q - 1) 0 < q :=
          H1 _ (by omega)
        by_cases hcmp : (nums.getD (bisect_left nums q) 0 - q).natAbs
            < (nums.getD (bisect_left nums q - 1) 0 - q).natAbs
        · refine ⟨bisect_left nums q, hrlen, ?_, ?_⟩
          · rw [hcomp, if_neg h0, if_neg (by omega), if_pos hcmp,
              getD_eq_get (f0 :: tl) f0 hrlen]
          · intro i hi
            rcases Nat.lt_or_ge i (bisect_left nums q) with hir | hir
            · have h1 : nums.getD i 0 ≤ nums.getD (bisect_left nums q - 1) 0 :=
                sorted_getD_mono hs (by omega) (by omega)
              have h2 : nums.getD i 0 < q := H1 i hir
              omega
            · have h1 : nums.getD (bisect_left nums q) 0 ≤ nums.getD i 0 :=
                sorted_getD_mono hs hir hi
              omega
        · refine ⟨bisect_left nums q - 1, by omega, ?_, ?_⟩
          · rw [hcomp, if_neg h0, if_neg (by omega), if_neg hcmp,
              getD_eq_get (f0 :: tl) f0
                (by omega : bisect_left nums q - 1 < (f0 :: tl).length)]
          · intro i hi
            rcases Nat.lt_or_ge i (bisect_left nums q) with hir | hir
            · have h1 : nums.getD i 0 ≤ nums.getD (bisect_left nums q - 1) 0 :=
                sorted_getD_mono hs (by omega) (by omega)
              have h2 : nums.getD i 0 < q := H1 i hir
              omega
            · have h1 : nums.getD (bisect_left nums q) 0 ≤ nums.getD i 0 :=
                sorted_getD_mono hs hir hi
              omega

/-- C6 witness: the telemetry built from raw frame numbers 1, 6, 11 has
normalized index array [0, 5, 10]; querying frame −5 has insertion point
0 and clamps to the first stored frame. -/
theorem interpolate_clamps_witness :
    interpolate_telemetry (mkChunkTelemetry 0 0 [tf 1, tf 6, tf 11]) (-5) =
      .ok (tf 1) := by
  have h := (interpolate_clamps_and_returns_nearest_stored
    (mkChunkTelemetry 0 0 [tf 1, tf 6, tf 11]) (-5)
    (by decide) (by decide) (by decide)).1 (by decide)
  simpa using h

end Telemetry

namespace Telemetry

/-- C1 counterexample: raw frames 1 and 7 normalize to indices [0, 6];
query 3 is strictly between them at equal distance 3 from both.  The
claim says the tie resolves to the later frame (the one at the insertion
point, raw frame 7), but `interpolate_telemetry` returns the earlier
frame (raw frame 1): the strict `<` comparison sends ties to `idx - 1`. -/
theorem interpolate_tie_counterexample :
    interpolate_telemetry (mkChunkTelemetry 0 0 [tf 1, tf 7]) 3 ≠
      .ok (tf 7) ∧
    interpolate_telemetry (mkChunkTelemetry 0 0 [tf 1, tf 7]) 3 =
      .ok (tf 1) := by
  constructor
  · decide
  · rfl

/-- C1 amended: when the query falls strictly between two consecutive
normalized frame numbers at equal absolute distance from both,
`interpolate_telemetry` returns the earlier (lower-index) frame, i.e.
ties resolve to the predecessor of the binary-search insertion point. -/
theorem interpolate_tie_returns_earlier (t : ChunkTelemetry) (q : Int)
    (k : Nat)
    (hlen : t.frameNums.length = t.frames.length)
    (hs : List.Pairwise (· ≤ ·) t.frameNums)
    (hk : k + 1 < t.frameNums.length)
    (hlow : t.frameNums.getD k 0 < q)
    (hhigh : q < t.frameNums.getD (k + 1) 0)
    (htie : q - t.frameNums.getD k 0 = t.frameNums.getD (k + 1) 0 - q) :
    ∃ hk' : k < t.frames.length,
      interpolate_telemetry t q = .ok (t.frames.get ⟨k, hk'⟩) := by
  obtain ⟨st, ci, fr, off, nums⟩ := t
  have hlen' : nums.length = fr.length := hlen
  have hk' : k + 1 < nums.length := hk
  have hlow' : nums.getD k 0 < q := hlow
  have hhigh' : q < nums.getD (k + 1) 0 := hhigh
  have htie' : q - nums.getD k 0 = nums.getD (k + 1) 0 - q := htie
  have hne : fr ≠ [] := by
    intro h
    subst h
    simp at hlen'
    subst hlen'
    simp at hk'
  obtain ⟨f0, tl, rfl⟩ := List.exists_cons_of_ne_nil hne
  have hcomp := interpolate_eq ⟨st, ci, f0 :: tl, off, nums⟩ q f0 tl rfl
  dsimp only at hcomp
  have hlen2 : nums.length = (f0 :: tl).length := hlen
  obtain ⟨hle, H1, H2⟩ := bisect_left_spec nums q hs
  have hr : bisect_left nums q = k + 1 := by
    rcases Nat.lt_or_ge (bisect_left nums q) (k + 1) with h | h
    · exfalso
      have := H2 k (by omega) (by omega)
      omega
    · rcases Nat.lt_or_ge (k + 1) (bisect_left nums q) with h2 | h2
      · exfalso
        have := H1 (k + 1) h2
        omega
      · omega
  have hklen : k < (f0 :: tl).length := by omega
  refine ⟨hklen, ?_⟩
  rw [hcomp, if_neg (by omega), if_neg (by omega),
    if_neg (by rw [hr, Nat.add_sub_cancel]; omega), hr, Nat.add_sub_cancel,
    getD_eq_get (f0 :: tl) f0 hklen]

/-- C1 amended witness: on normalized indices [0, 6] (raw frames 1 and 7)
the tie query 3 returns the earlier stored frame, raw frame 1. -/
theorem interpolate_tie_witness :
    interpolate_telemetry (mkChunkTelemetry 0 0 [tf 1, tf 7]) 3 =
      .ok (tf 1) := by
  obtain ⟨hk', h⟩ := interpolate_tie_returns_earlier
    (mkChunkTelemetry 0 0 [tf 1, tf 7]) 3 0
    (by decide) (by decide) (by decide) (by decide) (by decide) (by decide)
  simpa using h

/-- C2 (code bug): a telemetry list whose every raw frame number is ≤ 0 is
NOT reduced to an empty state by `__post_init__` — the `if valid:` guard
skips the assignment, so the corrupted frames stay in `frames` — and
`interpolate_telemetry` then takes the `idx == 0` branch (the `_frame_nums`
array is empty) and returns the corrupted first record instead of raising
the no-frames error.  The spec ("the structure remains in an empty state
and lookups must fail explicitly") and the code comment ("Filter out
corrupted frames") describe the clear intent; the code violates it. -/
theorem all_corrupted_lookup_returns_corrupted_record :
    (mkChunkTelemetry 0 0 [tf 0, tf (-2)]).frames = [tf 0, tf (-2)] ∧
    (mkChunkTelemetry 0 0 [tf 0, tf (-2)]).frameNums = [] ∧
    interpolate_telemetry (mkChunkTelemetry 0 0 [tf 0, tf (-2)]) 0 =
      .ok (tf 0) ∧
    ∀ msg, interpolate_telemetry (mkChunkTelemetry 0 0 [tf 0, tf (-2)]) 0 ≠
      .error msg := by
  refine ⟨rfl, rfl, rfl, ?_⟩
  intro msg h
  cases h

end Telemetry

namespace Telemetry

/-- C4 counterexample: raw samples in the order [5, 3] both survive the
filter, but `__post_init__` neither sorts nor minimizes — `frame_offset`
is the FIRST surviving raw frame number (5), not the smallest (3), and
the normalized index array [0, -2] is not ascending. -/
theorem mk_unsorted_counterexample :
    (mkChunkTelemetry 0 0 [tf 5, tf 3]).frame_offset ≠ 3 ∧
    (mkChunkTelemetry 0 0 [tf 5, tf 3]).frame_offset = 5 ∧
    (mkChunkTelemetry 0 0 [tf 5, tf 3]).frameNums = [0, -2] ∧
    ¬ List.Pairwise (· ≤ ·) (mkChunkTelemetry 0 0 [tf 5, tf 3]).frameNums := by
  exact ⟨by decide, rfl, rfl, by decide⟩

/-- C4 amended: `frame_offset` is the first surviving raw frame number.
When the surviving samples additionally appear in non-decreasing
frame-number order (in particular whenever the raw input is already
sorted, as a recorder emits it), the first survivor is also the smallest,
and the normalized 0-based index array is ascending. -/
theorem mk_offset_first_and_sorted_when_input_sorted
    (st ci : Int) (frames : List TelemetryFrame)
    (v0 : TelemetryFrame) (vs : List TelemetryFrame)
    (hv : frames.filter (fun f => 0 < f.frame_number) = v0 :: vs)
    (hsorted : List.Pairwise (fun a b => a.frame_number ≤ b.frame_number)
      (v0 :: vs)) :
    (mkChunkTelemetry st ci frames).frame_offset = v0.frame_number ∧
    (∀ v ∈ frames.filter (fun f => 0 < f.frame_number),
      v0.frame_number ≤ v.frame_number) ∧
    List.Pairwise (· ≤ ·) (mkChunkTelemetry st ci frames).frameNums := by
  have hmk : mkChunkTelemetry st ci frames =
      ⟨st, ci, v0 :: vs, v0.frame_number,
        (v0 :: vs).map (fun f => f.frame_number - v0.frame_number)⟩ := by
    cases frames with
    | nil => simp at hv
    | cons a as =>
      simp only [mkChunkTelemetry]
      rw [hv]
  refine ⟨by rw [hmk], ?_, ?_⟩
  · intro v hvmem
    rw [hv] at hvmem
    rcases List.mem_cons.mp hvmem with rfl | hvs
    · exact le_refl _
    · exact (List.pairwise_cons.mp hsorted).1 v hvs
  · rw [hmk]
    exact List.Pairwise.map _ (fun a b h => by omega) hsorted

/-- C4 amended witness: input [0, 3, 5] — sample 0 is filtered out, the
survivors [3, 5] are in ascending order, so the offset is the smallest
surviving frame number 3 and the index array is ascending. -/
theorem mk_offset_witness :
    (mkChunkTelemetry 0 0 [tf 0, tf 3, tf 5]).frame_offset = 3 ∧
    List.Pairwise (· ≤ ·) (mkChunkTelemetry 0 0 [tf 0, tf 3, tf 5]).frameNums := by
  have h := mk_offset_first_and_sorted_when_input_sorted 0 0
    [tf 0, tf 3, tf 5] (tf 3) [tf 5] (by decide) (by decide)
  exact ⟨h.1, h.2.2⟩

end Telemetry

namespace Render

theorem findReleaseIdx_eq_none (k : String) (l : List Event)
    (h : ∀ e ∈ l, e ≠ Event.keyboard k false) :
    findReleaseIdx k l = none := by
  induction l with
  | nil => rfl
  | cons e rest ih =>
    have hrest : findReleaseIdx k rest = none :=
      ih (fun e he => h e (List.mem_cons_of_mem _ he))
    cases e with
    | keyboard k2 b =>
      cases b with
      | false =>
        have hne : k2 ≠ k := by
          intro hkk
          exact h _ (List.mem_cons_self _ _) (by rw [hkk])
        simp [findReleaseIdx, hne, hrest]
      | true => simp [findReleaseIdx, hrest]
    | keyTyped k2 => simp [findReleaseIdx, hrest]
    | frame c => simp [findReleaseIdx, hrest]

theorem findReleaseIdx_append_release (k : String) (l₁ l₂ : List Event)
    (h : ∀ e ∈ l₁, e ≠ Event.keyboard k false) :
    findReleaseIdx k (l₁ ++ Event.keyboard k false :: l₂) = some l₁.length := by
  induction l₁ with
  | nil => simp [findReleaseIdx]
  | cons e rest ih =>
    have hrest := ih (fun e he => h e (List.mem_cons_of_mem _ he))
    cases e with
    | keyboard k2 b =>
      cases b with
      | false =>
        have hne : k2 ≠ k := by
          intro hkk
          exact h _ (List.mem_cons_self _ _) (by rw [hkk])
        simp [findReleaseIdx, hne, hrest]
      | true => simp [findReleaseIdx, hrest]
    | keyTyped k2 => simp [findReleaseIdx, hrest]
    | frame c => simp [findReleaseIdx, hrest]

theorem findReleaseIdx_some (k : String) (l : List Event) (j : Nat)
    (h : findReleaseIdx k l = some j) :
    j < l.length ∧ l.getD j (Event.frame 0) = Event.keyboard k false := by
  induction l generalizing j with
  | nil => cases h
  | cons e rest ih =>
    cases e with
    | keyboard k2 b =>
      cases b with
      | false =>
        by_cases hkk : k2 = k
        · subst hkk
          simp [findReleaseIdx] at h
          subst h
          simp
        · simp [findReleaseIdx, hkk, Option.map_eq_some'] at h
          obtain ⟨j', hj', rfl⟩ := h
          obtain ⟨h1, h2⟩ := ih j' hj'
          exact ⟨by simpa using Nat.succ_lt_succ h1, by simpa using h2⟩
      | true =>
        simp [findReleaseIdx, Option.map_eq_some'] at h
        obtain ⟨j', hj', rfl⟩ := h
        obtain ⟨h1, h2⟩ := ih j' hj'
        exact ⟨by simpa using Nat.succ_lt_succ h1, by simpa using h2⟩
    | keyTyped k2 =>
      simp [findReleaseIdx, Option.map_eq_some'] at h
      obtain ⟨j', hj', rfl⟩ := h
      obtain ⟨h1, h2⟩ := ih j' hj'
      exact ⟨by simpa using Nat.succ_lt_succ h1, by simpa using h2⟩
    | frame c =>
      simp [findReleaseIdx, Option.map_eq_some'] at h
      obtain ⟨j', hj', rfl⟩ := h
      obtain ⟨h1, h2⟩ := ih j' hj'
      exact ⟨by simpa using Nat.succ_lt_succ h1, by simpa using h2⟩

end Render

namespace Render

/-- C5: `compress_events` scanning left to right: a press of `K` whose
first release of `K` occurs within the next 5 events is replaced by one
KeyTyped(K), the events strictly between press and release are emitted
unmodified in original order, the release is elided and the scan resumes
immediately after it; a press with no release of `K` within the 5-event
window is emitted unmodified and the scan advances by one; a non-press
event passes through unmodified.  In particular
[press(A), frame(1), release(A), frame(2)] compresses to
[KeyTyped(A), frame(1), frame(2)]. -/
theorem compress_events_spec :
    (∀ (k : String) (between after : List Event),
      between.length < 5 →
      (∀ e ∈ between, e ≠ Event.keyboard k false) →
      compress_events
          (Event.keyboard k true :: (between ++ Event.keyboard k false :: after))
        = Event.keyTyped k :: (between ++ compress_events after)) ∧
    (∀ (k : String) (es : List Event),
      (∀ e ∈ es.take 5, e ≠ Event.keyboard k false) →
      compress_events (Event.keyboard k true :: es)
        = Event.keyboard k true :: compress_events es) ∧
    (∀ (e : Event) (es : List Event),
      (∀ kc : String, e ≠ Event.keyboard kc true) →
      compress_events (e :: es) = e :: compress_events es) ∧
    compress_events [Event.keyboard "A" true, Event.frame 1,
        Event.keyboard "A" false, Event.frame 2]
      = [Event.keyTyped "A", Event.frame 1, Event.frame 2] := by
  refine ⟨?_, ?_, ?_, ?_⟩
  · intro k between after hlen hnorel
    have htake : (between ++ Event.keyboard k false :: after).take 5
        = between ++ Event.keyboard k false :: (after.take (4 - between.length)) := by
      have h5 : 5 = between.length + (5 - between.length) := by omega
      rw [h5, List.take_append]
      have h4 : 5 - between.length = (4 - between.length) + 1 := by omega
      rw [h4, List.take_succ_cons]
    have hfind : findReleaseIdx k
        ((between ++ Event.keyboard k false :: after).take 5)
        = some between.length := by
      rw [htake]
      exact findReleaseIdx_append_release k between _ hnorel
    have htakeb : (between ++ Event.keyboard k false :: after).take between.length
        = between := List.take_left between _
    have hdrop : (between ++ Event.keyboard k false :: after).drop
        (between.length + 1) = after := by
      have : between ++ Event.keyboard k false :: after
          = (between ++ [Event.keyboard k false]) ++ after := by simp
      rw [this, show between.length + 1
          = (between ++ [Event.keyboard k false]).length by simp,
        List.drop_left]
    simp only [compress_events, hfind, htakeb, hdrop]
  · intro k es hnorel
    have hfind : findReleaseIdx k (es.take 5) = none :=
      findReleaseIdx_eq_none k _ hnorel
    simp only [compress_events, hfind]
  · intro e es hnp
    cases e with
    | keyboard kc b =>
      cases b with
      | true => exact absurd rfl (hnp kc)
      | false => simp only [compress_events]
    | keyTyped kc => simp only [compress_events]
    | frame c => simp only [compress_events]
  · simp [compress_events, findReleaseIdx]

/-- C5 witness: a press of "B" immediately followed by its release, with
one interleaved frame marker, compresses to KeyTyped("B") plus the
preserved frame marker. -/
theorem compress_events_spec_witness :
    compress_events [Event.keyboard "B" true, Event.frame 7,
        Event.keyboard "B" false]
      = [Event.keyTyped "B", Event.frame 7] := by
  have h := compress_events_spec.1 "B" [Event.frame 7] [] (by decide)
    (by decide)
  simpa [compress_events] using h

end Render

namespace Render

theorem filterMap_frameCounter_buildEventsAux :
    ∀ (ts : List Telemetry.TelemetryFrame) (pl pr : Bool) (i : Nat),
      (buildEventsAux pl pr i ts).filterMap frameCounter
        = List.range' i ts.length := by
  intro ts
  induction ts with
  | nil => intro pl pr i; rfl
  | cons t rest ih =>
    intro pl pr i
    simp only [buildEventsAux, List.filterMap_append, List.filterMap_cons]
    have h1 : (if t.keys_left ≠ pl then [Event.keyboard "Left" t.keys_left]
        else []).filterMap frameCounter = [] := by
      split <;> simp [frameCounter]
    have h2 : (if t.keys_right ≠ pr then [Event.keyboard "Right" t.keys_right]
        else []).filterMap frameCounter = [] := by
      split <;> simp [frameCounter]
    rw [h1, h2, ih]
    simp [frameCounter, List.range'_succ, List.length_cons]

theorem filterMap_frameCounter_compress (es : List Event) :
    (compress_events es).filterMap frameCounter
      = es.filterMap frameCounter := by
  match es with
  | [] => simp [compress_events]
  | e :: rest =>
    have ihrest : (compress_events rest).filterMap frameCounter
        = rest.filterMap frameCounter :=
      filterMap_frameCounter_compress rest
    cases e with
    | keyboard k b =>
      cases b with
      | true =>
        cases hfind : findReleaseIdx k (rest.take 5) with
        | none =>
          simp only [compress_events, hfind, List.filterMap_cons]
          simp [frameCounter, ihrest]
        | some j =>
          obtain ⟨hjlen, hjval⟩ := findReleaseIdx_some k _ j hfind
          have hjr : j < rest.length := by
            have := List.length_take 5 rest
            omega
          have hrelease : rest.getD j (Event.frame 0)
              = Event.keyboard k false := by
            rw [getD_eq_get _ _ (by simpa using hjlen), List.get_eq_getElem,
              List.getElem_take] at hjval
            rw [getD_eq_get _ _ hjr, List.get_eq_getElem]
            exact hjval
          have ihdrop : (compress_events (rest.drop (j + 1))).filterMap
              frameCounter = (rest.drop (j + 1)).filterMap frameCounter :=
            filterMap_frameCounter_compress (rest.drop (j + 1))
          have hsplit : rest.filterMap frameCounter
              = (rest.take j).filterMap frameCounter
                ++ (rest.drop (j + 1)).filterMap frameCounter := by
            conv_lhs => rw [← List.take_append_drop j rest]
            rw [List.filterMap_append, List.drop_eq_getElem_cons hjr]
            have : rest[j] = Event.keyboard k false := by
              rw [← hrelease, getD_eq_get _ _ hjr, List.get_eq_getElem]
            rw [this]
            simp [frameCounter]
          simp only [compress_events, hfind, List.filterMap_cons,
            List.filterMap_append]
          simp [frameCounter, ihdrop, hsplit]
      | false =>
        simp only [compress_events, List.filterMap_cons]
        simp [frameCounter, ihrest]
    | keyTyped k =>
      simp only [compress_events, List.filterMap_cons]
      simp [frameCounter, ihrest]
    | frame c =>
      simp only [compress_events, List.filterMap_cons]
      simp [frameCounter, ihrest]
  termination_by es.length
  decreasing_by
  all_goals simp only [List.length_drop, List.length_cons]
  all_goals omega

/-- C9: for a chunk with N extracted road frames (N telemetry samples,
one per frame), the event list built by `render_chunk` contains exactly
one Frame event with counter i for each 0 ≤ i < N, in ascending order
(its Frame-counter subsequence is `range N`); `compress_events` preserves
the Frame-marker subsequence of any event list; hence the compressed list
written to events.json still contains exactly those N Frame events in the
same relative order. -/
theorem frame_markers_exact_and_preserved
    (telems : List Telemetry.TelemetryFrame) :
    (build_events telems).filterMap frameCounter
      = List.range telems.length ∧
    (∀ es : List Event,
      (compress_events es).filterMap frameCounter
        = es.filterMap frameCounter) ∧
    (compress_events (build_events telems)).filterMap frameCounter
      = List.range telems.length := by
  have hbuild : (build_events telems).filterMap frameCounter
      = List.range telems.length := by
    rw [build_events, filterMap_frameCounter_buildEventsAux,
      List.range_eq_range']
  exact ⟨hbuild, fun es => filterMap_frameCounter_compress es,
    by rw [filterMap_frameCounter_compress, hbuild]⟩

end Render

namespace Render

theorem keyObs_left_buildEventsAux :
    ∀ (ts : List Telemetry.TelemetryFrame) (pl pr : Bool) (i n : Nat),
      n < ((buildEventsAux pl pr i ts).filterMap (keyObs "Left")).length →
      ((buildEventsAux pl pr i ts).filterMap (keyObs "Left")).getD n false
        = (decide (n % 2 = 0) != pl) := by
  intro ts
  induction ts with
  | nil => intro pl pr i n h; simp [buildEventsAux] at h
  | cons t rest ih =>
    intro pl pr i n h
    have hL : (buildEventsAux pl pr i (t :: rest)).filterMap (keyObs "Left")
        = (if t.keys_left ≠ pl then [t.keys_left] else [])
          ++ (buildEventsAux t.keys_left t.keys_right (i + 1) rest).filterMap
            (keyObs "Left") := by
      simp only [buildEventsAux, List.filterMap_append, List.filterMap_cons]
      have h1 : (if t.keys_left ≠ pl then [Event.keyboard "Left" t.keys_left]
          else []).filterMap (keyObs "Left")
          = (if t.keys_left ≠ pl then [t.keys_left] else []) := by
        split <;> simp [keyObs]
      have h2 : (if t.keys_right ≠ pr then [Event.keyboard "Right" t.keys_right]
          else []).filterMap (keyObs "Left") = [] := by
        split <;> simp [keyObs]
      rw [h1, h2]
      simp [keyObs]
    rw [hL] at h ⊢
    by_cases hkl : t.keys_left = pl
    · rw [if_neg (by simp [hkl])] at h ⊢
      simp only [List.nil_append] at h ⊢
      rw [ih t.keys_left t.keys_right (i + 1) n h, hkl]
    · have hnot : t.keys_left = !pl := by
        cases pl <;> cases hv : t.keys_left <;> simp_all
      rw [if_pos (by simp [hkl])] at h ⊢
      simp only [List.singleton_append] at h ⊢
      cases n with
      | zero => simp [hnot]
      | succ m =>
        have hm : m < ((buildEventsAux t.keys_left t.keys_right (i + 1)
            rest).filterMap (keyObs "Left")).length := by
          simpa using h
        rw [List.getD_cons_succ, ih _ _ _ m hm, hnot]
        rcases Nat.mod_two_eq_zero_or_one m with hm2 | hm2
        · have h1 : (m + 1) % 2 = 1 := by omega
          simp [hm2, h1]
        · have h0 : (m + 1) % 2 = 0 := by omega
          simp [hm2, h0]

theorem keyObs_right_buildEventsAux :
    ∀ (ts : List Telemetry.TelemetryFrame) (pl pr : Bool) (i n : Nat),
      n < ((buildEventsAux pl pr i ts).filterMap (keyObs "Right")).length →
      ((buildEventsAux pl pr i ts).filterMap (keyObs "Right")).getD n false
        = (decide (n % 2 = 0) != pr) := by
  intro ts
  induction ts with
  | nil => intro pl pr i n h; simp [buildEventsAux] at h
  | cons t rest ih =>
    intro pl pr i n h
    have hL : (buildEventsAux pl pr i (t :: rest)).filterMap (keyObs "Right")
        = (if t.keys_right ≠ pr then [t.keys_right] else [])
          ++ (buildEventsAux t.keys_left t.keys_right (i + 1) rest).filterMap
            (keyObs "Right") := by
      simp only [buildEventsAux, List.filterMap_append, List.filterMap_cons]
      have h1 : (if t.keys_left ≠ pl then [Event.keyboard "Left" t.keys_left]
          else []).filterMap (keyObs "Right") = [] := by
        split <;> simp [keyObs]
      have h2 : (if t.keys_right ≠ pr then [Event.keyboard "Right" t.keys_right]
          else []).filterMap (keyObs "Right")
          = (if t.keys_right ≠ pr then [t.keys_right] else []) := by
        split <;> simp [keyObs]
      rw [h1, h2]
      simp [keyObs]
    rw [hL] at h ⊢
    by_cases hkr : t.keys_right = pr
    · rw [if_neg (by simp [hkr])] at h ⊢
      simp only [List.nil_append] at h ⊢
      rw [ih t.keys_left t.keys_right (i + 1) n h, hkr]
    · have hnot : t.keys_right = !pr := by
        cases pr <;> cases hv : t.keys_right <;> simp_all
      rw [if_pos (by simp [hkr])] at h ⊢
      simp only [List.singleton_append] at h ⊢
      cases n with
      | zero => simp [hnot]
      | succ m =>
        have hm : m < ((buildEventsAux t.keys_left t.keys_right (i + 1)
            rest).filterMap (keyObs "Right")).length := by
          simpa using h
        rw [List.getD_cons_succ, ih _ _ _ m hm, hnot]
        rcases Nat.mod_two_eq_zero_or_one m with hm2 | hm2
        · have h1 : (m + 1) % 2 = 1 := by omega
          simp [hm2, h1]
        · have h0 : (m + 1) % 2 = 0 := by omega
          simp [hm2, h0]

/-- C10: in the event list `render_chunk` builds before compression, for
each of the keycodes "Left" and "Right" independently, the Keyboard
events strictly alternate between press and release and the first one
(if any) is a press: the n-th Keyboard event for that keycode has
`is_press = true` exactly at even n (initial key state is released).
Consequently every release is preceded by an earlier unreleased press of
the same key. -/
theorem keyboard_events_alternate (telems : List Telemetry.TelemetryFrame) :
    (∀ n, n < ((build_events telems).filterMap (keyObs "Left")).length →
      ((build_events telems).filterMap (keyObs "Left")).getD n false
        = decide (n % 2 = 0)) ∧
    (∀ n, n < ((build_events telems).filterMap (keyObs "Right")).length →
      ((build_events telems).filterMap (keyObs "Right")).getD n false
        = decide (n % 2 = 0)) := by
  constructor
  · intro n h
    have := keyObs_left_buildEventsAux telems false false 0 n h
    simpa using this
  · intro n h
    have := keyObs_right_buildEventsAux telems false false 0 n h
    simpa using this

/-- C10 witness: a single sample with the Left key held produces exactly
one "Left" Keyboard event and it is a press. -/
theorem keyboard_events_alternate_witness :
    ((build_events [⟨1, 0, true, false, 0, false, false, 0, 0⟩]).filterMap
      (keyObs "Left")).getD 0 false = true := by
  have h := (keyboard_events_alternate
    [⟨1, 0, true, false, 0, false, false, 0, 0⟩]).1 0 (by decide)
  simpa using h

end Render

namespace Renderer

/-- C8: a worker whose setup succeeded emits exactly one result per real
task it dequeues, in order: the n-th result is the result of the n-th
task, `(frame_index, True, "")` when handling it succeeds and
`(frame_index, False, str(e)[:200])` (message truncated to at most 200
characters) when handling it raises — and the worker continues to the
next task either way (every later task still gets its result).  A worker
whose outer setup raises emits exactly one result, with sentinel frame
index −1 and success flag false, and terminates. -/
theorem worker_one_result_per_task (wid : Int) (tasks : List WTask)
    (outcome : WTask → Except (List Char) Unit) (e : List Char) :
    (worker_process wid (.ok ()) tasks outcome).length = tasks.length ∧
    (∀ n, n < tasks.length →
      (worker_process wid (.ok ()) tasks outcome).getD n ⟨0, false, []⟩
        = task_result (tasks.getD n ⟨0⟩) (outcome (tasks.getD n ⟨0⟩))) ∧
    (∀ t : WTask, ∀ u : Unit, outcome t = .ok u →
      task_result t (outcome t) = ⟨t.frame_index, true, []⟩) ∧
    (∀ t : WTask, ∀ msg : List Char, outcome t = .error msg →
      task_result t (outcome t) = ⟨t.frame_index, false, msg.take 200⟩) ∧
    (∀ r ∈ worker_process wid (.ok ()) tasks outcome, r.msg.length ≤ 200) ∧
    ((worker_process wid (.error e) tasks outcome).length = 1 ∧
      ∀ r ∈ worker_process wid (.error e) tasks outcome,
        r.frame_index = -1 ∧ r.ok = false) := by
  refine ⟨by simp [worker_process, worker_loop], ?_, ?_, ?_, ?_, ?_⟩
  · intro n hn
    simp only [worker_process, worker_loop]
    rw [getD_eq_get _ _ (by simpa using hn), List.get_eq_getElem,
      List.getElem_map, getD_eq_get _ _ hn, List.get_eq_getElem]
  · intro t u hok
    rw [hok]
    rfl
  · intro t msg herr
    rw [herr]
    rfl
  · intro r hr
    simp only [worker_process, worker_loop, List.mem_map] at hr
    obtain ⟨t, _, rfl⟩ := hr
    cases houtcome : outcome t with
    | ok u => simp [task_result, houtcome]
    | error msg =>
      simp [task_result, houtcome, List.length_take]
  · exact ⟨rfl, by intro r hr; simp [worker_process] at hr; simp [hr]⟩

/-- C8 witness: one task with frame index 5 whose handling raises "boom"
yields exactly the single result (5, False, "boom"). -/
theorem worker_one_result_witness :
    (worker_process 0 (Except.ok ()) [⟨5⟩]
        (fun _ => Except.error "boom".toList)).getD 0 ⟨0, false, []⟩
      = ⟨5, false, "boom".toList⟩ := by
  have h := (worker_one_result_per_task 0 [⟨5⟩]
    (fun _ => Except.error "boom".toList) []).2.1 0 (by decide)
  simpa [task_result] using h

end Renderer

namespace Discovery

/-- C3 counterexample: `FILE_PATTERN` never ties the extension to the
kind — `road_100_chunk000.json` and `telemetry_100_chunk000.webm` both
match (they are not treated as unmatched), and a directory containing
only these two mismatched files still produces a full session/chunk
group. -/
theorem mismatched_extension_counterexample :
    matchFilePattern "road_100_chunk000.json"
      = some ⟨.road, 100, 0, "json"⟩ ∧
    matchFilePattern "telemetry_100_chunk000.webm"
      = some ⟨.telemetry, 100, 0, "webm"⟩ ∧
    discover_sessions ["road_100_chunk000.json", "telemetry_100_chunk000.webm"]
      = [⟨100, [⟨100, 0, "road_100_chunk000.json", none,
          "telemetry_100_chunk000.webm"⟩]⟩] := by
  exact ⟨rfl, rfl, rfl⟩

theorem matchTail_ext (rest : List Char) (p : Nat × Nat × String)
    (h : matchTail rest = some p) :
    p.2.2 = "webm" ∨ p.2.2 = "json" := by
  simp only [matchTail] at h
  split at h
  · cases h
  · split at h
    · split at h
      · cases h
      · split at h
        · split at h
          · rw [Option.some.injEq] at h
            subst h
            assumption
          · cases h
        · cases h
    · cases h

/-- C3 amended: the pattern accepts any kind ∈ {road, wide, telemetry}
with either extension ∈ {webm, json}; whether a filename's tail (after
`{kind}_`) matches, and what is captured from it, is entirely independent
of the kind, so mismatched kind/extension combinations such as
road_*.json or telemetry_*.webm match and contribute to their
(timestamp, index) group like any other file of that kind.  The only
constraint on the extension is membership in {webm, json}. -/
theorem pattern_kind_and_extension_independent :
    (∀ (k : FileKind) (tail : String),
      matchFilePattern (kindStr k ++ "_" ++ tail)
        = (matchTail tail.toList).map (fun p => ⟨k, p.1, p.2.1, p.2.2⟩)) ∧
    (∀ (name : String) (m : FileMatch), matchFilePattern name = some m →
      m.ext = "webm" ∨ m.ext = "json") := by
  constructor
  · intro k tail
    cases k with
    | road =>
      have h1 : ("road_".toList).isPrefixOf
          (("road" ++ "_" ++ tail).toList) = true := by
        rw [List.isPrefixOf_iff_prefix]
        exact List.prefix_append "road_".toList tail.toList
      have h2 : (("road" ++ "_" ++ tail).toList).drop 5 = tail.toList :=
        List.drop_left "road_".toList tail.toList
      simp only [matchFilePattern, kindStr, h1, if_true, h2]
    | wide =>
      have h0 : ("road_".toList).isPrefixOf
          (("wide" ++ "_" ++ tail).toList) = false := rfl
      have h1 : ("wide_".toList).isPrefixOf
          (("wide" ++ "_" ++ tail).toList) = true := by
        rw [List.isPrefixOf_iff_prefix]
        exact List.prefix_append "wide_".toList tail.toList
      have h2 : (("wide" ++ "_" ++ tail).toList).drop 5 = tail.toList :=
        List.drop_left "wide_".toList tail.toList
      simp only [matchFilePattern, kindStr, h0, h1, if_true, Bool.false_eq_true,
        if_false, h2]
    | telemetry =>
      have h0 : ("road_".toList).isPrefixOf
          (("telemetry" ++ "_" ++ tail).toList) = false := rfl
      have h0' : ("wide_".toList).isPrefixOf
          (("telemetry" ++ "_" ++ tail).toList) = false := rfl
      have h1 : ("telemetry_".toList).isPrefixOf
          (("telemetry" ++ "_" ++ tail).toList) = true := by
        rw [List.isPrefixOf_iff_prefix]
        exact List.prefix_append "telemetry_".toList tail.toList
      have h2 : (("telemetry" ++ "_" ++ tail).toList).drop 10 = tail.toList :=
        List.drop_left "telemetry_".toList tail.toList
      simp only [matchFilePattern, kindStr, h0, h0', h1, if_true,
        Bool.false_eq_true, if_false, h2]
  · intro name m h
    simp only [matchFilePattern] at h
    split at h
    · rw [Option.map_eq_some'] at h
      obtain ⟨p, hp, rfl⟩ := h
      exact matchTail_ext _ p hp
    · split at h
      · rw [Option.map_eq_some'] at h
        obtain ⟨p, hp, rfl⟩ := h
        exact matchTail_ext _ p hp
      · split at h
        · rw [Option.map_eq_some'] at h
          obtain ⟨p, hp, rfl⟩ := h
          exact matchTail_ext _ p hp
        · cases h

/-- C3 amended witness: the road kind paired with the JSON extension is
accepted, and the parsed extension is one of the two allowed ones. -/
theorem pattern_kind_extension_witness :
    matchFilePattern ("road" ++ "_" ++ "1_chunk2.json")
      = some ⟨.road, 1, 2, "json"⟩ ∧
    ((⟨.road, 1, 2, "json"⟩ : FileMatch).ext = "webm" ∨
      (⟨.road, 1, 2, "json"⟩ : FileMatch).ext = "json") := by
  constructor
  · exact (pattern_kind_and_extension_independent.1 FileKind.road
      "1_chunk2.json").trans (by rfl)
  · exact pattern_kind_and_extension_independent.2
      ("road" ++ "_" ++ "1_chunk2.json") ⟨.road, 1, 2, "json"⟩
      ((pattern_kind_and_extension_independent.1 FileKind.road
        "1_chunk2.json").trans (by rfl))

end Discovery

namespace Discovery

theorem updateGroups_inv (names : List String)
    (groups : List ((Nat × Nat) × GroupFiles)) (key : Nat × Nat)
    (kind : FileKind) (path : String)
    (hg : ∀ e ∈ groups, GroupInv names e)
    (hpath : path ∈ names)
    (hmatch : ∃ ext, matchFilePattern path = some ⟨kind, key.1, key.2, ext⟩) :
    ∀ e ∈ updateGroups groups key kind path, GroupInv names e := by
  induction groups with
  | nil =>
    intro e he
    simp only [updateGroups, List.mem_singleton] at he
    subst he
    cases kind <;>
      exact ⟨fun p hp => by simp [GroupFiles.set] at hp; try exact hp ▸ ⟨hpath, hmatch⟩,
        fun p hp => by simp [GroupFiles.set] at hp; try exact hp ▸ ⟨hpath, hmatch⟩,
        fun p hp => by simp [GroupFiles.set] at hp; try exact hp ▸ ⟨hpath, hmatch⟩⟩
  | cons kg rest ih =>
    obtain ⟨k, g⟩ := kg
    intro e he
    simp only [updateGroups] at he
    split at he
    case isTrue heq =>
      subst heq
      rcases List.mem_cons.mp he with rfl | hrest
      · have hgk := hg (k, g) (List.mem_cons_self _ _)
        cases kind with
        | road =>
          exact ⟨fun p hp => by simp [GroupFiles.set] at hp; exact hp ▸ ⟨hpath, hmatch⟩,
            fun p hp => hgk.2.1 p (by simpa [GroupFiles.set] using hp),
            fun p hp => hgk.2.2 p (by simpa [GroupFiles.set] using hp)⟩
        | wide =>
          exact ⟨fun p hp => hgk.1 p (by simpa [GroupFiles.set] using hp),
            fun p hp => by simp [GroupFiles.set] at hp; exact hp ▸ ⟨hpath, hmatch⟩,
            fun p hp => hgk.2.2 p (by simpa [GroupFiles.set] using hp)⟩
        | telemetry =>
          exact ⟨fun p hp => hgk.1 p (by simpa [GroupFiles.set] using hp),
            fun p hp => hgk.2.1 p (by simpa [GroupFiles.set] using hp),
            fun p hp => by simp [GroupFiles.set] at hp; exact hp ▸ ⟨hpath, hmatch⟩⟩
      · exact hg _ (List.mem_cons_of_mem _ hrest)
    case isFalse heq =>
      rcases List.mem_cons.mp he with rfl | hrest
      · exact hg _ (List.mem_cons_self _ _)
      · exact ih (fun e' he' => hg e' (List.mem_cons_of_mem _ he')) _ hrest

theorem buildGroups_foldl_inv (names : List String) :
    ∀ (l : List String) (acc : List ((Nat × Nat) × GroupFiles)),
      (∀ x ∈ l, x ∈ names) →
      (∀ e ∈ acc, GroupInv names e) →
      ∀ e ∈ l.foldl
        (fun groups name =>
          match matchFilePattern name with
          | none => groups
          | some m =>
            updateGroups groups (m.timestamp, m.chunk_index) m.kind name)
        acc, GroupInv names e := by
  intro l
  induction l with
  | nil => intro acc _ hacc e he; exact hacc e he
  | cons name l ih =>
    intro acc hl hacc e he
    rw [List.foldl_cons] at he
    refine ih _ (fun x hx => hl x (List.mem_cons_of_mem _ hx)) ?_ e he
    cases hm : matchFilePattern name with
    | none => simpa [hm] using hacc
    | some m =>
      simp only [hm]
      exact updateGroups_inv names acc (m.timestamp, m.chunk_index) m.kind
        name hacc (hl name (List.mem_cons_self _ _))
        ⟨m.ext, by rw [hm]⟩

theorem buildGroups_inv (names : List String) :
    ∀ e ∈ buildGroups names, GroupInv names e :=
  buildGroups_foldl_inv names names [] (fun _ hx => hx) (fun _ he => by cases he)

theorem addChunk_inv (names : List String) (m : List (Nat × List Chunk))
    (ts : Nat) (c : Chunk)
    (hm : ∀ p ∈ m, ∀ ch ∈ p.2, ch.timestamp = p.1 ∧ ChunkProv names ch)
    (hts : c.timestamp = ts) (hc : ChunkProv names c) :
    ∀ p ∈ addChunk m ts c, ∀ ch ∈ p.2,
      ch.timestamp = p.1 ∧ ChunkProv names ch := by
  induction m with
  | nil =>
    intro p hp ch hch
    simp only [addChunk, List.mem_singleton] at hp
    subst hp
    simp only [List.mem_singleton] at hch
    subst hch
    exact ⟨hts, hc⟩
  | cons tcs rest ih =>
    obtain ⟨t, cs⟩ := tcs
    intro p hp ch hch
    simp only [addChunk] at hp
    split at hp
    case isTrue heq =>
      subst heq
      rcases List.mem_cons.mp hp with rfl | hrest
      · rcases List.mem_append.mp hch with hch1 | hch2
        · exact hm (t, cs) (List.mem_cons_self _ _) ch hch1
        · simp only [List.mem_singleton] at hch2
          subst hch2
          exact ⟨hts, hc⟩
      · exact hm _ (List.mem_cons_of_mem _ hrest) ch hch
    case isFalse heq =>
      rcases List.mem_cons.mp hp with rfl | hrest
      · exact hm _ (List.mem_cons_self _ _) ch hch
      · exact ih (fun p' hp' => hm p' (List.mem_cons_of_mem _ hp')) _ hrest ch hch

theorem buildChunksBySession_foldl_inv (names : List String) :
    ∀ (groups : List ((Nat × Nat) × GroupFiles))
      (acc : List (Nat × List Chunk)),
      (∀ e ∈ groups, GroupInv names e) →
      (∀ p ∈ acc, ∀ ch ∈ p.2, ch.timestamp = p.1 ∧ ChunkProv names ch) →
      ∀ p ∈ groups.foldl
        (fun m kg =>
          match kg.2.road, kg.2.telemetry with
          | some r, some t =>
            addChunk m kg.1.1 ⟨kg.1.1, kg.1.2, r, kg.2.wide, t⟩
          | _, _ => m)
        acc, ∀ ch ∈ p.2, ch.timestamp = p.1 ∧ ChunkProv names ch := by
  intro groups
  induction groups with
  | nil =>
    intro acc _ hacc p hp
    exact hacc p (by simpa using hp)
  | cons kg rest ih =>
    intro acc hg hacc p hp
    rw [List.foldl_cons] at hp
    refine ih _ (fun e he => hg e (List.mem_cons_of_mem _ he)) ?_ p hp
    have hkg := hg kg (List.mem_cons_self _ _)
    cases hr : kg.2.road with
    | none =>
      cases ht : kg.2.telemetry with
      | none => simpa [hr, ht] using hacc
      | some t => simpa [hr, ht] using hacc
    | some r =>
      cases ht : kg.2.telemetry with
      | none => simpa [hr, ht] using hacc
      | some t =>
        simp only [hr, ht]
        refine addChunk_inv names acc kg.1.1 ⟨kg.1.1, kg.1.2, r, kg.2.wide, t⟩
          hacc rfl ?_
        exact ⟨hkg.1 r hr, hkg.2.2 t ht, fun p' hp' => hkg.2.1 p' hp'⟩

end Discovery

namespace Discovery

/-- C7: every chunk returned by `discover_sessions` has both a road-video
path and a telemetry path that come from matching input files of those
kinds at the chunk's own (timestamp, chunk_index) — a group missing
either never appears — and a wide video is attached only when a matching
wide file is present (`ChunkProv`); the returned sessions are sorted by
timestamp descending, and within each session the chunks are sorted by
chunk_index ascending with every chunk sharing the session's timestamp. -/
theorem discover_sessions_sorted_and_complete (names : List String) :
    List.Sorted sessionGE (discover_sessions names) ∧
    ∀ s ∈ discover_sessions names,
      List.Sorted chunkLE s.chunks ∧
      ∀ c ∈ s.chunks, c.timestamp = s.timestamp ∧ ChunkProv names c := by
  constructor
  · exact List.sorted_insertionSort sessionGE _
  · intro s hs
    have hs' : s ∈ (buildChunksBySession (buildGroups names)).map
        (fun p => Session.mk p.1 (List.insertionSort chunkLE p.2)) :=
      ((List.perm_insertionSort sessionGE _).mem_iff).mp hs
    obtain ⟨p, hp, rfl⟩ := List.mem_map.mp hs'
    refine ⟨List.sorted_insertionSort chunkLE p.2, ?_⟩
    intro c hc
    have hc' : c ∈ p.2 := ((List.perm_insertionSort chunkLE p.2).mem_iff).mp hc
    have hinv := buildChunksBySession_foldl_inv names (buildGroups names) []
      (buildGroups_inv names) (fun q hq => by cases hq) p hp c hc'
    exact hinv

/-- C7 witness: a directory with one road/telemetry pair yields one
session whose single chunk carries the session timestamp and provably
has both files. -/
theorem discover_sessions_witness :
    (⟨5, 1, "road_5_chunk001.webm", none,
        "telemetry_5_chunk001.json"⟩ : Chunk).timestamp = 5 ∧
    ChunkProv ["road_5_chunk001.webm", "telemetry_5_chunk001.json"]
      ⟨5, 1, "road_5_chunk001.webm", none, "telemetry_5_chunk001.json"⟩ := by
  have hmem : (⟨5, [⟨5, 1, "road_5_chunk001.webm", none,
      "telemetry_5_chunk001.json"⟩]⟩ : Session) ∈ discover_sessions
      ["road_5_chunk001.webm", "telemetry_5_chunk001.json"] := by
    rw [show discover_sessions
        ["road_5_chunk001.webm", "telemetry_5_chunk001.json"]
        = [⟨5, [⟨5, 1, "road_5_chunk001.webm", none,
            "telemetry_5_chunk001.json"⟩]⟩] from rfl]
    exact List.mem_singleton_self _
  have h := (discover_sessions_sorted_and_complete
    ["road_5_chunk001.webm", "telemetry_5_chunk001.json"]).2
    ⟨5, [⟨5, 1, "road_5_chunk001.webm", none, "telemetry_5_chunk001.json"⟩]⟩
    hmem
  exact h.2 ⟨5, 1, "road_5_chunk001.webm", none, "telemetry_5_chunk001.json"⟩
    (List.mem_singleton_self _)

end Discovery
